import Mathlib

/-!
Verification of the DBSCAN clustering core described by the specification of
this repository.  The notebook in src/clustering.py invokes the clustering
engine of an external library; the engine itself is therefore modelled from
the pseudocode of section 4.3 of the specification, while the lines of the
notebook that do appear in src (the cluster counting formula and the
non-finite-entry replacement of the feature matrix) are embedded directly.
-/

namespace DbscanSpec

/-- Modelled from the spec: per-point label state of the Cluster Expansion
Engine (section 4.3): not yet labeled, the NOISE sentinel, or a cluster id. -/
inductive Lbl where
  | unset : Lbl
  | noise : Lbl
  | cl : ℕ → Lbl
deriving DecidableEq

/-- Integer view of a final label: NOISE is the integer -1, a cluster id is
itself.  The value -2 marks the not-yet-labeled state, which the
completeness results show never survives a run. -/
def Lbl.toInt : Lbl → ℤ
  | .unset => -2
  | .noise => -1
  | .cl c => (c : ℤ)

/-- Pointwise update of a function out of Fin n. -/
def updF {n : ℕ} {α : Type} (f : Fin n → α) (i : Fin n) (v : α) : Fin n → α :=
  fun j => if j = i then v else f j

/-- Modelled from the spec: the mutable per-point state of the engine:
label, visited flag, and the recorded core flag for the Label Store. -/
structure St (n : ℕ) where
  labels : Fin n → Lbl
  visited : Fin n → Bool
  core : Fin n → Bool

/-- Write one label. -/
def setLabel {n : ℕ} (s : St n) (p : Fin n) (l : Lbl) : St n :=
  { s with labels := updF s.labels p l }

/-- Mark a point visited and record whether it is core. -/
def visit {n : ℕ} (s : St n) (p : Fin n) (b : Bool) : St n :=
  { s with visited := updF s.visited p true, core := updF s.core p b }

/-- Modelled from the spec (section 4.3): if label[Q] is unset or NOISE then
label[Q] becomes the current cluster id, otherwise nothing changes. -/
def relabelIf {n : ℕ} (s : St n) (q : Fin n) (c : ℕ) : St n :=
  match s.labels q with
  | .unset => setLabel s q (.cl c)
  | .noise => setLabel s q (.cl c)
  | .cl _ => s

/-- Modelled from the spec (section 4.2): the naive Neighborhood Index.
regionQuery returns every index q with distance(points[p], points[q]) <= eps,
scanning the whole index range. -/
def regionQuery {n : ℕ} {α : Type} [LinearOrder α] (D : Fin n → Fin n → α) (eps : α) (p : Fin n) :
    List (Fin n) :=
  (List.finRange n).filter (fun q => decide (D p q ≤ eps))

/-- The density condition of the spec: at least minPts points (the point
itself included) in the eps-neighborhood. -/
def coreCond {n : ℕ} {α : Type} [LinearOrder α] (D : Fin n → Fin n → α) (eps : α) (minPts : ℕ)
    (p : Fin n) : Prop :=
  minPts ≤ (regionQuery D eps p).length

instance {n : ℕ} {α : Type} [LinearOrder α] (D : Fin n → Fin n → α) (eps : α) (minPts : ℕ) (p : Fin n) :
    Decidable (coreCond D eps minPts p) :=
  inferInstanceAs (Decidable (minPts ≤ _))

/-- Number of points not yet visited. -/
def unvisCount {n : ℕ} (v : Fin n → Bool) : ℕ :=
  (Finset.univ.filter (fun i => v i = false)).card

/-- Termination measure of the seed-expansion loop: every iteration either
visits a new point (enqueuing at most n seeds) or consumes one seed. -/
def expMeasure {n : ℕ} (s : St n) (seeds : List (Fin n)) : ℕ :=
  unvisCount s.visited * (n + 1) + seeds.length

/-- Modelled from the spec (section 4.3): one iteration of the inner
while-loop of the Cluster Expansion Engine.  The dequeued seed Q, if
unvisited, is marked visited, its neighborhood is scanned and, when Q is
core, the neighbors not already queued are appended to the seed queue;
finally Q is claimed for the current cluster when its label is unset or
NOISE.  Returns the remaining seed queue and the new state. -/
def expandStep {n : ℕ} {α : Type} [LinearOrder α] (D : Fin n → Fin n → α) (eps : α) (minPts : ℕ)
    (c : ℕ) (q : Fin n) (rest : List (Fin n)) (s : St n) :
    List (Fin n) × St n :=
  if s.visited q = true then (rest, relabelIf s q c)
  else
    ((if minPts ≤ (regionQuery D eps q).length then
        rest ++ (regionQuery D eps q).filter (fun x => decide (x ∉ rest))
      else rest),
     relabelIf (visit s q (decide (minPts ≤ (regionQuery D eps q).length))) q c)

/-- Modelled from the spec (section 4.3): the inner while-loop of the Cluster
Expansion Engine, iterating expandStep until the seed queue empties, with an
explicit fuel argument. -/
def expandF {n : ℕ} {α : Type} [LinearOrder α] (D : Fin n → Fin n → α) (eps : α) (minPts : ℕ) (c : ℕ) :
    ℕ → List (Fin n) → St n → St n
  | 0, _, s => s
  | _ + 1, [], s => s
  | fuel + 1, q :: rest, s =>
    expandF D eps minPts c fuel
      (expandStep D eps minPts c q rest s).1
      (expandStep D eps minPts c q rest s).2

/-- The expansion loop run to completion: the fuel is the termination measure,
which the lemma expandF_measure_le shows is sufficient. -/
def expand {n : ℕ} {α : Type} [LinearOrder α] (D : Fin n → Fin n → α) (eps : α) (minPts : ℕ) (c : ℕ)
    (seeds : List (Fin n)) (s : St n) : St n :=
  expandF D eps minPts c (expMeasure s seeds) seeds s

/-- Modelled from the spec (section 4.3): the outer loop over the Dataset in
index order.  An unvisited point with a dense neighborhood seeds a new
cluster, which is then expanded; an unvisited sparse point is provisionally
labeled NOISE.  Returns the final state and the next cluster id. -/
def dbLoop {n : ℕ} {α : Type} [LinearOrder α] (D : Fin n → Fin n → α) (eps : α) (minPts : ℕ) :
    List (Fin n) → ℕ → St n → St n × ℕ
  | [], c, s => (s, c)
  | p :: rest, c, s =>
    if s.visited p = true then
      dbLoop D eps minPts rest c s
    else if minPts ≤ (regionQuery D eps p).length then
      dbLoop D eps minPts rest (c + 1)
        (expand D eps minPts c
          ((regionQuery D eps p).filter (fun x => decide (¬ x = p)))
          (setLabel (visit s p true) p (.cl c)))
    else
      dbLoop D eps minPts rest c (setLabel (visit s p false) p .noise)

/-- The all-unset, all-unvisited initial state. -/
def initSt (n : ℕ) : St n :=
  ⟨fun _ => .unset, fun _ => false, fun _ => false⟩

/-- Modelled from the spec: a complete run of the Cluster Expansion Engine on
n points with index-to-index distance D. -/
def runDBSCAN (n : ℕ) {α : Type} [LinearOrder α] (D : Fin n → Fin n → α) (eps : α) (minPts : ℕ) :
    St n × ℕ :=
  dbLoop D eps minPts (List.finRange n) 0 (initSt n)

/-- Final engine state of a run. -/
def finalSt (n : ℕ) {α : Type} [LinearOrder α] (D : Fin n → Fin n → α) (eps : α) (minPts : ℕ) : St n :=
  (runDBSCAN n D eps minPts).1

/-- Number of clusters created by a run (the final value of the id counter). -/
def clCount (n : ℕ) {α : Type} [LinearOrder α] (D : Fin n → Fin n → α) (eps : α) (minPts : ℕ) : ℕ :=
  (runDBSCAN n D eps minPts).2

/-- Label Store view: integer label of a point, NOISE encoded as -1. -/
def labelOf (n : ℕ) {α : Type} [LinearOrder α] (D : Fin n → Fin n → α) (eps : α) (minPts : ℕ)
    (p : Fin n) : ℤ :=
  ((finalSt n D eps minPts).labels p).toInt

/-- Label Store view: recorded core flag of a point. -/
def isCoreStore (n : ℕ) {α : Type} [LinearOrder α] (D : Fin n → Fin n → α) (eps : α) (minPts : ℕ)
    (p : Fin n) : Bool :=
  (finalSt n D eps minPts).core p

/-- Label Store view: members of one cluster, as a Finset of indices. -/
def membersSet (n : ℕ) {α : Type} [LinearOrder α] (D : Fin n → Fin n → α) (eps : α) (minPts : ℕ)
    (c : ℕ) : Finset (Fin n) :=
  Finset.univ.filter (fun p => (finalSt n D eps minPts).labels p = .cl c)

/-- Label Store view: the set of noise points. -/
def noiseSet (n : ℕ) {α : Type} [LinearOrder α] (D : Fin n → Fin n → α) (eps : α) (minPts : ℕ) :
    Finset (Fin n) :=
  Finset.univ.filter (fun p => (finalSt n D eps minPts).labels p = .noise)

/-- The cluster ids of clusters owning a core point within eps of p. -/
def nearCoreIds (n : ℕ) {α : Type} [LinearOrder α] (D : Fin n → Fin n → α) (eps : α) (minPts : ℕ)
    (p : Fin n) : Finset ℕ :=
  (Finset.range (clCount n D eps minPts)).filter
    (fun c => ∃ q, coreCond D eps minPts q ∧
      (finalSt n D eps minPts).labels q = .cl c ∧ D p q ≤ eps)

/-- Modelled from the spec (section 5): the accelerated Neighborhood Index as
a full neighborhood cache built once, one entry per point. -/
def buildIndex (n : ℕ) {α : Type} [LinearOrder α] (D : Fin n → Fin n → α) (eps : α) :
    List (List (Fin n)) :=
  (List.finRange n).map (fun p => regionQuery D eps p)

/-- Region query answered from the prebuilt cache. -/
def regionQueryIdx (n : ℕ) {α : Type} [LinearOrder α] (D : Fin n → Fin n → α) (eps : α) (p : Fin n) :
    List (Fin n) :=
  (buildIndex n D eps).getD p.1 []

/-- Modelled from the spec (section 4.1): the Manhattan metric, one of the
pluggable distance oracles, exact over the rationals. -/
def manhattan (xs ys : List ℚ) : ℚ :=
  (List.zipWith (fun a b => |a - b|) xs ys).sum

/-- Index-to-index distance induced on a dataset by a pluggable metric. -/
def distOf {P : Type} {α : Type} (points : List P) (metric : P → P → α) :
    Fin points.length → Fin points.length → α :=
  fun i j => metric (points.get i) (points.get j)

/-- The Manhattan metric over integer coordinates, used by the concrete
witnesses because integer arithmetic evaluates inside the kernel. -/
def manhattanInt (xs ys : List ℤ) : ℤ :=
  (List.zipWith (fun a b => |a - b|) xs ys).sum

/-- Modelled from the spec (section 7): the failure taxonomy of the engine. -/
inductive ClusterError where
  | invalidParameter : ClusterError
  | emptyDataset : ClusterError
  | dimensionMismatch : ClusterError
deriving DecidableEq

/-- Modelled from the spec (section 4.4): the finalized Label Store handed to
the caller: integer labels and core flags in dataset order, plus the cluster
counter. -/
structure LabelStore where
  n : ℕ
  labels : List ℤ
  coreFlags : List Bool
  count : ℕ
deriving DecidableEq

/-- All points of the dataset share one dimension. -/
def sameDims (points : List (List ℚ)) : Prop :=
  ∀ r ∈ points, r.length = (points.headD []).length

instance (points : List (List ℚ)) : Decidable (sameDims points) :=
  inferInstanceAs (Decidable (∀ r ∈ points, _ = _))

/-- Modelled from the spec (section 6): the entry point of the core.
Parameters are validated first (InvalidParameter on non-positive eps or
minPts below one, EmptyDataset on zero points, DimensionMismatch on ragged
input); a valid call runs the engine and returns the Label Store. -/
def cluster (points : List (List ℚ)) (eps : ℚ) (minPts : ℤ)
    (metric : List ℚ → List ℚ → ℚ) : Except ClusterError LabelStore :=
  if eps ≤ 0 ∨ minPts < 1 then .error .invalidParameter
  else if points.length = 0 then .error .emptyDataset
  else if ¬ sameDims points then .error .dimensionMismatch
  else
    .ok ⟨points.length,
      (List.finRange points.length).map (fun p =>
        ((runDBSCAN points.length (distOf points metric) eps
          minPts.toNat).1.labels p).toInt),
      (List.finRange points.length).map (fun p =>
        (runDBSCAN points.length (distOf points metric) eps
          minPts.toNat).1.core p),
      (runDBSCAN points.length (distOf points metric) eps minPts.toNat).2⟩

/-- Embedded from src/clustering.py lines 471 and 134: the number of clusters
reported by the notebook, len(set(labels)) minus one when the NOISE sentinel
-1 occurs among the labels. -/
def realClusterNum (ls : List ℤ) : ℕ :=
  ls.toFinset.card - (if (-1 : ℤ) ∈ ls then 1 else 0)

/-- A floating-point cell of the feature matrix: a finite value or one of the
non-finite specials.  Used to embed the nan_to_num cleaning step of
src/clustering.py lines 461 and 542. -/
inductive NpFloat where
  | finite : ℚ → NpFloat
  | nan : NpFloat
  | posInf : NpFloat
  | negInf : NpFloat
deriving DecidableEq

/-- The largest double-precision value, the replacement numpy uses for
positive infinity. -/
def maxDouble : ℚ := 17976931348623157 * 10 ^ 292

/-- Embedded from src/clustering.py lines 461 and 542 (numpy nan_to_num):
NaN becomes 0, positive infinity the largest double, negative infinity its
negation; finite entries pass through unchanged. -/
def nanToNum : NpFloat → NpFloat
  | .nan => .finite 0
  | .posInf => .finite maxDouble
  | .negInf => .finite (-maxDouble)
  | .finite x => .finite x

/-- Whether a matrix cell is finite. -/
def NpFloat.isFinite : NpFloat → Bool
  | .finite _ => true
  | _ => false

/-- Embedded from src/clustering.py lines 461 and 542: nan_to_num applied to
the whole feature matrix, before standardization and clustering. -/
def nanToNumMatrix (m : List (List NpFloat)) : List (List NpFloat) :=
  m.map (fun r => r.map nanToNum)

/-- A point that has not been visited carries no label yet.  This holds of
every reachable state of the engine and is preserved by every step. -/
def tame {n : ℕ} (s : St n) : Prop :=
  ∀ j, s.visited j = false → s.labels j = .unset

instance {n : ℕ} (s : St n) : Decidable (tame s) :=
  inferInstanceAs (Decidable (∀ _i, _ → _))

/-- Invariant of the expansion loop while cluster c is being grown.  It ties
the visited flags, the recorded core flags and the labels together and
carries the density-reachability facts that make every final-state theorem
fall out when the seed queue empties. -/
structure Inv {n : ℕ} {α : Type} [LinearOrder α] (D : Fin n → Fin n → α) (eps : α) (minPts : ℕ)
    (c : ℕ) (seeds : List (Fin n)) (s : St n) : Prop where
  vl : ∀ p, s.visited p = true ↔ s.labels p ≠ .unset
  coreflag : ∀ p, s.core p = true ↔
    (s.visited p = true ∧ coreCond D eps minPts p)
  bound : ∀ p d, s.labels p = .cl d → d ≤ c
  corenz : ∀ p, coreCond D eps minPts p → s.labels p ≠ .noise
  border : ∀ p d, s.labels p = .cl d → ¬ coreCond D eps minPts p →
    ∃ q, coreCond D eps minPts q ∧ s.labels q = .cl d ∧ D q p ≤ eps
  reach : ∀ q d, coreCond D eps minPts q → s.labels q = .cl d →
    ∀ p, D q p ≤ eps →
      (∃ e, e ≤ d ∧ s.labels p = .cl e) ∨ (d = c ∧ p ∈ seeds)
  seedsR : ∀ x ∈ seeds, ∃ q, coreCond D eps minPts q ∧
    s.labels q = .cl c ∧ D q x ≤ eps
  occ : ∀ d, d ≤ c → ∃ p, s.labels p = .cl d

/-- Invariant between iterations of the outer loop, k being the next cluster
id to assign. -/
structure OInv {n : ℕ} {α : Type} [LinearOrder α] (D : Fin n → Fin n → α) (eps : α) (minPts : ℕ)
    (k : ℕ) (s : St n) : Prop where
  vl : ∀ p, s.visited p = true ↔ s.labels p ≠ .unset
  coreflag : ∀ p, s.core p = true ↔
    (s.visited p = true ∧ coreCond D eps minPts p)
  boundLt : ∀ p d, s.labels p = .cl d → d < k
  corenz : ∀ p, coreCond D eps minPts p → s.labels p ≠ .noise
  border : ∀ p d, s.labels p = .cl d → ¬ coreCond D eps minPts p →
    ∃ q, coreCond D eps minPts q ∧ s.labels q = .cl d ∧ D q p ≤ eps
  reach0 : ∀ q d, coreCond D eps minPts q → s.labels q = .cl d →
    ∀ p, D q p ≤ eps → ∃ e, e ≤ d ∧ s.labels p = .cl e
  occLt : ∀ d, d < k → ∃ p, s.labels p = .cl d

/-! ### Concrete fixture used by the witnesses: two clusters of four points
each on a line, one shared border point between them. -/

def wPts : List (List ℤ) := [[0], [1], [2], [3], [6], [9], [10], [11], [12]]

def wD : Fin 9 → Fin 9 → ℤ := distOf wPts manhattanInt

def wSt : St 9 := setLabel (visit (initSt 9) 0 true) 0 (.cl 0)

/-! ### Basic state lemmas -/

theorem updF_self {n : ℕ} {α : Type} (f : Fin n → α) (i : Fin n) (v : α) :
    updF f i v i = v := by
  simp [updF]

theorem updF_ne {n : ℕ} {α : Type} (f : Fin n → α) (i : Fin n) (v : α)
    (j : Fin n) (h : j ≠ i) : updF f i v j = f j := by
  simp [updF, h]

theorem relabelIf_visited {n : ℕ} (s : St n) (q : Fin n) (c : ℕ) :
    (relabelIf s q c).visited = s.visited := by
  unfold relabelIf
  cases s.labels q <;> rfl

theorem relabelIf_core {n : ℕ} (s : St n) (q : Fin n) (c : ℕ) :
    (relabelIf s q c).core = s.core := by
  unfold relabelIf
  cases s.labels q <;> rfl

theorem relabelIf_labels_ne {n : ℕ} (s : St n) (q : Fin n) (c : ℕ)
    (p : Fin n) (h : p ≠ q) : (relabelIf s q c).labels p = s.labels p := by
  unfold relabelIf
  cases s.labels q <;> simp [setLabel, updF_ne _ _ _ _ h]

theorem relabelIf_labels_cl {n : ℕ} (s : St n) (q : Fin n) (c : ℕ)
    (p : Fin n) (d : ℕ) (h : s.labels p = .cl d) :
    (relabelIf s q c).labels p = .cl d := by
  by_cases hpq : p = q
  · subst hpq
    unfold relabelIf
    rw [h]
    exact h
  · rw [relabelIf_labels_ne s q c p hpq, h]

theorem relabelIf_self_unset {n : ℕ} (s : St n) (q : Fin n) (c : ℕ)
    (h : s.labels q = .unset) : (relabelIf s q c).labels q = .cl c := by
  unfold relabelIf
  rw [h]
  simp [setLabel, updF_self]

theorem relabelIf_self_noise {n : ℕ} (s : St n) (q : Fin n) (c : ℕ)
    (h : s.labels q = .noise) : (relabelIf s q c).labels q = .cl c := by
  unfold relabelIf
  rw [h]
  simp [setLabel, updF_self]

/-- Every label write of relabelIf: unchanged, or the documented upgrade of
an unset or NOISE point to the current cluster. -/
theorem relabelIf_cases {n : ℕ} (s : St n) (q : Fin n) (c : ℕ) (p : Fin n) :
    (relabelIf s q c).labels p = s.labels p ∨
      ((relabelIf s q c).labels p = .cl c ∧ p = q ∧
        (s.labels q = .unset ∨ s.labels q = .noise)) := by
  by_cases hpq : p = q
  · subst hpq
    cases h : s.labels p with
    | unset => exact Or.inr ⟨relabelIf_self_unset s p c h, rfl, Or.inl rfl⟩
    | noise => exact Or.inr ⟨relabelIf_self_noise s p c h, rfl, Or.inr rfl⟩
    | cl d => exact Or.inl (relabelIf_labels_cl s p c p d h)
  · exact Or.inl (relabelIf_labels_ne s q c p hpq)

theorem visit_labels {n : ℕ} (s : St n) (p : Fin n) (b : Bool) :
    (visit s p b).labels = s.labels := rfl

theorem visit_visited_self {n : ℕ} (s : St n) (p : Fin n) (b : Bool) :
    (visit s p b).visited p = true := by
  simp [visit, updF_self]

theorem visit_visited_ne {n : ℕ} (s : St n) (p : Fin n) (b : Bool)
    (j : Fin n) (h : j ≠ p) : (visit s p b).visited j = s.visited j := by
  simp [visit, updF_ne _ _ _ _ h]

theorem visit_core_self {n : ℕ} (s : St n) (p : Fin n) (b : Bool) :
    (visit s p b).core p = b := by
  simp [visit, updF_self]

theorem visit_core_ne {n : ℕ} (s : St n) (p : Fin n) (b : Bool)
    (j : Fin n) (h : j ≠ p) : (visit s p b).core j = s.core j := by
  simp [visit, updF_ne _ _ _ _ h]

theorem setLabel_labels_self {n : ℕ} (s : St n) (p : Fin n) (l : Lbl) :
    (setLabel s p l).labels p = l := by
  simp [setLabel, updF_self]

theorem setLabel_labels_ne {n : ℕ} (s : St n) (p : Fin n) (l : Lbl)
    (j : Fin n) (h : j ≠ p) : (setLabel s p l).labels j = s.labels j := by
  simp [setLabel, updF_ne _ _ _ _ h]

theorem setLabel_visited {n : ℕ} (s : St n) (p : Fin n) (l : Lbl) :
    (setLabel s p l).visited = s.visited := rfl

theorem setLabel_core {n : ℕ} (s : St n) (p : Fin n) (l : Lbl) :
    (setLabel s p l).core = s.core := rfl

/-! ### Region query and measure lemmas -/

theorem mem_regionQuery {n : ℕ} {α : Type} [LinearOrder α] (D : Fin n → Fin n → α) (eps : α)
    (p q : Fin n) : q ∈ regionQuery D eps p ↔ D p q ≤ eps := by
  simp [regionQuery, List.mem_filter]

theorem regionQuery_length_le {n : ℕ} {α : Type} [LinearOrder α] (D : Fin n → Fin n → α) (eps : α)
    (p : Fin n) : (regionQuery D eps p).length ≤ n := by
  calc (regionQuery D eps p).length ≤ (List.finRange n).length :=
        List.length_filter_le _ _
    _ = n := List.length_finRange n

theorem unvisCount_visit {n : ℕ} (v : Fin n → Bool) (q : Fin n)
    (h : v q = false) : unvisCount (updF v q true) + 1 = unvisCount v := by
  unfold unvisCount
  have hset : Finset.univ.filter (fun i => updF v q true i = false) =
      (Finset.univ.filter (fun i => v i = false)).erase q := by
    ext j
    by_cases hj : j = q
    · subst hj
      simp [updF_self]
    · simp [Finset.mem_erase, hj, updF_ne _ _ _ _ hj]
  rw [hset]
  exact Finset.card_erase_add_one (by simp [h])

/-! ### One-step lemmas for the expansion loop -/

theorem expandStep_labels_cl {n : ℕ} {α : Type} [LinearOrder α] (D : Fin n → Fin n → α) (eps : α)
    (minPts c : ℕ) (q : Fin n) (rest : List (Fin n)) (s : St n) (p : Fin n)
    (d : ℕ) (h : s.labels p = .cl d) :
    (expandStep D eps minPts c q rest s).2.labels p = .cl d := by
  unfold expandStep
  split
  · exact relabelIf_labels_cl s q c p d h
  · exact relabelIf_labels_cl _ q c p d h

theorem expandStep_labels_cases {n : ℕ} {α : Type} [LinearOrder α] (D : Fin n → Fin n → α) (eps : α)
    (minPts c : ℕ) (q : Fin n) (rest : List (Fin n)) (s : St n) (p : Fin n) :
    (expandStep D eps minPts c q rest s).2.labels p = s.labels p ∨
      ((expandStep D eps minPts c q rest s).2.labels p = .cl c ∧
        (s.labels p = .unset ∨ s.labels p = .noise)) := by
  unfold expandStep
  split
  · rcases relabelIf_cases s q c p with h | ⟨h1, h2, h3⟩
    · exact Or.inl h
    · subst h2
      exact Or.inr ⟨h1, h3⟩
  · rcases relabelIf_cases (visit s q (decide (minPts ≤ (regionQuery D eps q).length))) q c p with h | ⟨h1, h2, h3⟩
    · exact Or.inl h
    · subst h2
      exact Or.inr ⟨h1, h3⟩

theorem expandStep_visited_mono {n : ℕ} {α : Type} [LinearOrder α] (D : Fin n → Fin n → α) (eps : α)
    (minPts c : ℕ) (q : Fin n) (rest : List (Fin n)) (s : St n) (p : Fin n)
    (h : s.visited p = true) :
    (expandStep D eps minPts c q rest s).2.visited p = true := by
  unfold expandStep
  split
  · rw [relabelIf_visited]
    exact h
  · rw [relabelIf_visited]
    by_cases hpq : p = q
    · subst hpq
      exact visit_visited_self s p _
    · rw [visit_visited_ne s q _ p hpq]
      exact h

theorem expandStep_measure {n : ℕ} {α : Type} [LinearOrder α] (D : Fin n → Fin n → α) (eps : α)
    (minPts c : ℕ) (q : Fin n) (rest : List (Fin n)) (s : St n) :
    expMeasure (expandStep D eps minPts c q rest s).2
        (expandStep D eps minPts c q rest s).1 <
      expMeasure s (q :: rest) := by
  unfold expandStep
  by_cases hv : s.visited q = true
  · rw [if_pos hv]
    simp [expMeasure, relabelIf_visited]
  · rw [if_neg hv]
    have hq : s.visited q = false := by
      simpa using hv
    have hcnt : unvisCount (updF s.visited q true) + 1 = unvisCount s.visited :=
      unvisCount_visit s.visited q hq
    have hlen : (if minPts ≤ (regionQuery D eps q).length then
        rest ++ (regionQuery D eps q).filter (fun x => decide (x ∉ rest))
      else rest).length ≤ rest.length + n := by
      split
      · rw [List.length_append]
        have h1 := List.length_filter_le (fun x => decide (x ∉ rest))
          (regionQuery D eps q)
        have h2 := regionQuery_length_le D eps q
        omega
      · omega
    have hvis : (relabelIf (visit s q
        (decide (minPts ≤ (regionQuery D eps q).length))) q c).visited =
        updF s.visited q true := by
      rw [relabelIf_visited]
      rfl
    simp only [expMeasure, hvis]
    have hmul : unvisCount s.visited * (n + 1) =
        unvisCount (updF s.visited q true) * (n + 1) + (n + 1) := by
      rw [← hcnt]
      ring
    have hg : (q :: rest).length = rest.length + 1 := rfl
    omega

/-! ### Monotonicity along the expansion loop -/

theorem expandF_labels_cl {n : ℕ} {α : Type} [LinearOrder α] (D : Fin n → Fin n → α) (eps : α)
    (minPts c : ℕ) (fuel : ℕ) :
    ∀ (seeds : List (Fin n)) (s : St n) (p : Fin n) (d : ℕ),
      s.labels p = .cl d →
      (expandF D eps minPts c fuel seeds s).labels p = .cl d := by
  induction fuel with
  | zero => intro seeds s p d h; exact h
  | succ fuel ih =>
    intro seeds s p d h
    cases seeds with
    | nil => exact h
    | cons q rest =>
      exact ih _ _ p d (expandStep_labels_cl D eps minPts c q rest s p d h)

theorem expandF_labels_cases {n : ℕ} {α : Type} [LinearOrder α] (D : Fin n → Fin n → α) (eps : α)
    (minPts c : ℕ) (fuel : ℕ) :
    ∀ (seeds : List (Fin n)) (s : St n) (p : Fin n),
      (expandF D eps minPts c fuel seeds s).labels p = s.labels p ∨
        ((expandF D eps minPts c fuel seeds s).labels p = .cl c ∧
          (s.labels p = .unset ∨ s.labels p = .noise)) := by
  induction fuel with
  | zero => intro seeds s p; exact Or.inl rfl
  | succ fuel ih =>
    intro seeds s p
    cases seeds with
    | nil => exact Or.inl rfl
    | cons q rest =>
      unfold expandF
      rcases expandStep_labels_cases D eps minPts c q rest s p with h | ⟨h1, h2⟩
      · rcases ih (expandStep D eps minPts c q rest s).1
            (expandStep D eps minPts c q rest s).2 p with h3 | ⟨h3, h4⟩
        · exact Or.inl (by rw [h3, h])
        · exact Or.inr ⟨h3, by rw [← h]; exact h4⟩
      · exact Or.inr ⟨expandF_labels_cl D eps minPts c fuel _ _ p c h1, h2⟩

theorem expandF_visited_mono {n : ℕ} {α : Type} [LinearOrder α] (D : Fin n → Fin n → α) (eps : α)
    (minPts c : ℕ) (fuel : ℕ) :
    ∀ (seeds : List (Fin n)) (s : St n) (p : Fin n),
      s.visited p = true →
      (expandF D eps minPts c fuel seeds s).visited p = true := by
  induction fuel with
  | zero => intro seeds s p h; exact h
  | succ fuel ih =>
    intro seeds s p h
    cases seeds with
    | nil => exact h
    | cons q rest =>
      exact ih _ _ p (expandStep_visited_mono D eps minPts c q rest s p h)

/-! ### Monotonicity along the outer loop -/



theorem tame_init (n : ℕ) : tame (initSt n) := by
  intro j _
  rfl

theorem expandStep_tame {n : ℕ} {α : Type} [LinearOrder α] (D : Fin n → Fin n → α) (eps : α)
    (minPts c : ℕ) (q : Fin n) (rest : List (Fin n)) (s : St n)
    (h : tame s) : tame (expandStep D eps minPts c q rest s).2 := by
  intro j hj
  unfold expandStep at hj ⊢
  by_cases hv : s.visited q = true
  · rw [if_pos hv] at hj ⊢
    have hjq : j ≠ q := by
      intro hjq
      subst hjq
      rw [relabelIf_visited] at hj
      rw [hj] at hv
      exact Bool.false_ne_true hv
    rw [relabelIf_labels_ne s q c j hjq]
    rw [relabelIf_visited] at hj
    exact h j hj
  · rw [if_neg hv] at hj ⊢
    rw [relabelIf_visited] at hj
    have hjq : j ≠ q := by
      intro hjq
      subst hjq
      rw [visit_visited_self] at hj
      exact absurd hj (by simp)
    rw [relabelIf_labels_ne _ q c j hjq, visit_labels]
    rw [visit_visited_ne s q _ j hjq] at hj
    exact h j hj

theorem expandF_tame {n : ℕ} {α : Type} [LinearOrder α] (D : Fin n → Fin n → α) (eps : α)
    (minPts c : ℕ) (fuel : ℕ) :
    ∀ (seeds : List (Fin n)) (s : St n), tame s →
      tame (expandF D eps minPts c fuel seeds s) := by
  induction fuel with
  | zero => intro seeds s h; exact h
  | succ fuel ih =>
    intro seeds s h
    cases seeds with
    | nil => exact h
    | cons q rest =>
      exact ih _ _ (expandStep_tame D eps minPts c q rest s h)

/-- The state seeding or noise-marking a freshly visited point is tame. -/
theorem tame_visitLabel {n : ℕ} (s : St n) (p0 : Fin n) (b : Bool) (l : Lbl)
    (h : tame s) : tame (setLabel (visit s p0 b) p0 l) := by
  intro j hj
  rw [setLabel_visited] at hj
  by_cases hjp : j = p0
  · subst hjp
    rw [visit_visited_self] at hj
    exact absurd hj (by simp)
  · rw [setLabel_labels_ne _ _ _ j hjp, visit_labels]
    rw [visit_visited_ne s p0 b j hjp] at hj
    exact h j hj

theorem dbLoop_tame {n : ℕ} {α : Type} [LinearOrder α] (D : Fin n → Fin n → α) (eps : α) (minPts : ℕ) :
    ∀ (ps : List (Fin n)) (c : ℕ) (s : St n), tame s →
      tame (dbLoop D eps minPts ps c s).1 := by
  intro ps
  induction ps with
  | nil => intro c s h; exact h
  | cons p0 rest ih =>
    intro c s h
    unfold dbLoop
    by_cases hv : s.visited p0 = true
    · rw [if_pos hv]
      exact ih c s h
    · rw [if_neg hv]
      by_cases hc : minPts ≤ (regionQuery D eps p0).length
      · rw [if_pos hc]
        exact ih (c + 1) _
          (expandF_tame D eps minPts c _ _ _ (tame_visitLabel s p0 true _ h))
      · rw [if_neg hc]
        exact ih c _ (tame_visitLabel s p0 false _ h)

theorem dbLoop_labels_cl {n : ℕ} {α : Type} [LinearOrder α] (D : Fin n → Fin n → α) (eps : α)
    (minPts : ℕ) :
    ∀ (ps : List (Fin n)) (c : ℕ) (s : St n) (p : Fin n) (d : ℕ), tame s →
      s.labels p = .cl d →
      (dbLoop D eps minPts ps c s).1.labels p = .cl d := by
  intro ps
  induction ps with
  | nil => intro c s p d _ hl; exact hl
  | cons p0 rest ih =>
    intro c s p d h hl
    have hp0 : p ≠ p0 ∨ s.visited p0 = true := by
      by_cases hpp : p = p0
      · subst hpp
        by_cases hv : s.visited p = true
        · exact Or.inr hv
        · have := h p (by simpa using hv)
          rw [hl] at this
          exact absurd this (by simp)
      · exact Or.inl hpp
    unfold dbLoop
    by_cases hv : s.visited p0 = true
    · rw [if_pos hv]
      exact ih c s p d h hl
    · rw [if_neg hv]
      have hpp : p ≠ p0 := by
        rcases hp0 with h1 | h1
        · exact h1
        · exact absurd h1 hv
      by_cases hc : minPts ≤ (regionQuery D eps p0).length
      · rw [if_pos hc]
        refine ih (c + 1) _ p d
          (expandF_tame D eps minPts c _ _ _ (tame_visitLabel s p0 true _ h)) ?_
        refine expandF_labels_cl D eps minPts c _ _ _ p d ?_
        rw [setLabel_labels_ne _ _ _ p hpp, visit_labels]
        exact hl
      · rw [if_neg hc]
        refine ih c _ p d (tame_visitLabel s p0 false _ h) ?_
        rw [setLabel_labels_ne _ _ _ p hpp, visit_labels]
        exact hl

theorem dbLoop_visited_mono {n : ℕ} {α : Type} [LinearOrder α] (D : Fin n → Fin n → α) (eps : α)
    (minPts : ℕ) :
    ∀ (ps : List (Fin n)) (c : ℕ) (s : St n) (p : Fin n),
      s.visited p = true →
      (dbLoop D eps minPts ps c s).1.visited p = true := by
  intro ps
  induction ps with
  | nil => intro c s p hv; exact hv
  | cons p0 rest ih =>
    intro c s p hv
    unfold dbLoop
    by_cases hv0 : s.visited p0 = true
    · rw [if_pos hv0]
      exact ih c s p hv
    · rw [if_neg hv0]
      by_cases hc : minPts ≤ (regionQuery D eps p0).length
      · rw [if_pos hc]
        refine ih (c + 1) _ p ?_
        refine expandF_visited_mono D eps minPts c _ _ _ p ?_
        rw [setLabel_visited]
        by_cases hpp : p = p0
        · subst hpp
          exact visit_visited_self s p true
        · rw [visit_visited_ne s p0 true p hpp]
          exact hv
      · rw [if_neg hc]
        refine ih c _ p ?_
        rw [setLabel_visited]
        by_cases hpp : p = p0
        · subst hpp
          exact visit_visited_self s p false
        · rw [visit_visited_ne s p0 false p hpp]
          exact hv

theorem dbLoop_counter_le {n : ℕ} {α : Type} [LinearOrder α] (D : Fin n → Fin n → α) (eps : α)
    (minPts : ℕ) :
    ∀ (ps : List (Fin n)) (c : ℕ) (s : St n),
      c ≤ (dbLoop D eps minPts ps c s).2 := by
  intro ps
  induction ps with
  | nil => intro c s; exact le_refl c
  | cons p0 rest ih =>
    intro c s
    unfold dbLoop
    by_cases hv : s.visited p0 = true
    · rw [if_pos hv]
      exact ih c s
    · rw [if_neg hv]
      by_cases hc : minPts ≤ (regionQuery D eps p0).length
      · rw [if_pos hc]
        exact le_trans (Nat.le_succ c) (ih (c + 1) _)
      · rw [if_neg hc]
        exact ih c _

theorem dbLoop_noise_cases {n : ℕ} {α : Type} [LinearOrder α] (D : Fin n → Fin n → α) (eps : α)
    (minPts : ℕ) :
    ∀ (ps : List (Fin n)) (c : ℕ) (s : St n) (p : Fin n), tame s →
      s.labels p = .noise →
      (dbLoop D eps minPts ps c s).1.labels p = .noise ∨
        ∃ d, c ≤ d ∧ (dbLoop D eps minPts ps c s).1.labels p = .cl d := by
  intro ps
  induction ps with
  | nil => intro c s p _ hl; exact Or.inl hl
  | cons p0 rest ih =>
    intro c s p h hl
    have hpp : p ≠ p0 ∨ s.visited p0 = true := by
      by_cases hpp : p = p0
      · subst hpp
        by_cases hv : s.visited p = true
        · exact Or.inr hv
        · have := h p (by simpa using hv)
          rw [hl] at this
          exact absurd this (by simp)
      · exact Or.inl hpp
    unfold dbLoop
    by_cases hv : s.visited p0 = true
    · rw [if_pos hv]
      exact ih c s p h hl
    · rw [if_neg hv]
      have hne : p ≠ p0 := by
        rcases hpp with h1 | h1
        · exact h1
        · exact absurd h1 hv
      by_cases hc : minPts ≤ (regionQuery D eps p0).length
      · rw [if_pos hc]
        have h2 : (setLabel (visit s p0 true) p0 (.cl c)).labels p = .noise := by
          rw [setLabel_labels_ne _ _ _ p hne, visit_labels]
          exact hl
        have htame2 : tame (expandF D eps minPts c
            (expMeasure (setLabel (visit s p0 true) p0 (.cl c))
              ((regionQuery D eps p0).filter (fun x => decide (¬ x = p0))))
            ((regionQuery D eps p0).filter (fun x => decide (¬ x = p0)))
            (setLabel (visit s p0 true) p0 (.cl c))) :=
          expandF_tame D eps minPts c _ _ _ (tame_visitLabel s p0 true _ h)
        rcases expandF_labels_cases D eps minPts c
            (expMeasure (setLabel (visit s p0 true) p0 (.cl c))
              ((regionQuery D eps p0).filter (fun x => decide (¬ x = p0))))
            ((regionQuery D eps p0).filter (fun x => decide (¬ x = p0)))
            (setLabel (visit s p0 true) p0 (.cl c)) p with h3 | ⟨h3, _⟩
        · rw [h2] at h3
          rcases ih (c + 1) _ p htame2 h3 with h4 | ⟨d, hd1, hd2⟩
          · exact Or.inl h4
          · exact Or.inr ⟨d, le_trans (Nat.le_succ c) hd1, hd2⟩
        · refine Or.inr ⟨c, le_refl c, ?_⟩
          exact dbLoop_labels_cl D eps minPts rest (c + 1) _ p c htame2 h3
      · rw [if_neg hc]
        refine ih c _ p (tame_visitLabel s p0 false _ h) ?_
        rw [setLabel_labels_ne _ _ _ p hne, visit_labels]
        exact hl

theorem dbLoop_visits {n : ℕ} {α : Type} [LinearOrder α] (D : Fin n → Fin n → α) (eps : α)
    (minPts : ℕ) :
    ∀ (ps : List (Fin n)) (c : ℕ) (s : St n) (p : Fin n), p ∈ ps →
      (dbLoop D eps minPts ps c s).1.visited p = true := by
  intro ps
  induction ps with
  | nil => intro c s p hp; exact absurd hp (List.not_mem_nil p)
  | cons p0 rest ih =>
    intro c s p hp
    rcases List.mem_cons.mp hp with hpe | hpm
    · subst hpe
      unfold dbLoop
      by_cases hv : s.visited p = true
      · rw [if_pos hv]
        exact dbLoop_visited_mono D eps minPts rest c s p hv
      · rw [if_neg hv]
        by_cases hc : minPts ≤ (regionQuery D eps p).length
        · rw [if_pos hc]
          refine dbLoop_visited_mono D eps minPts rest (c + 1) _ p ?_
          refine expandF_visited_mono D eps minPts c _ _ _ p ?_
          rw [setLabel_visited]
          exact visit_visited_self s p true
        · rw [if_neg hc]
          refine dbLoop_visited_mono D eps minPts rest c _ p ?_
          rw [setLabel_visited]
          exact visit_visited_self s p false
    · unfold dbLoop
      by_cases hv : s.visited p0 = true
      · rw [if_pos hv]
        exact ih c s p hpm
      · rw [if_neg hv]
        by_cases hc : minPts ≤ (regionQuery D eps p0).length
        · rw [if_pos hc]
          exact ih (c + 1) _ p hpm
        · rw [if_neg hc]
          exact ih c _ p hpm

/-! ### The main run invariant -/

theorem relabelIf_eq_of_cl {n : ℕ} (s : St n) (q : Fin n) (c d : ℕ)
    (h : s.labels q = .cl d) : relabelIf s q c = s := by
  unfold relabelIf
  rw [h]

theorem relabelIf_eq_of_noise {n : ℕ} (s : St n) (q : Fin n) (c : ℕ)
    (h : s.labels q = .noise) : relabelIf s q c = setLabel s q (.cl c) := by
  unfold relabelIf
  rw [h]

theorem relabelIf_eq_of_unset {n : ℕ} (s : St n) (q : Fin n) (c : ℕ)
    (h : s.labels q = .unset) : relabelIf s q c = setLabel s q (.cl c) := by
  unfold relabelIf
  rw [h]



theorem step_inv_visited {n : ℕ} {α : Type} [LinearOrder α] (D : Fin n → Fin n → α) (eps : α)
    (minPts c : ℕ) (q : Fin n) (rest : List (Fin n)) (s : St n)
    (hv : s.visited q = true) (hInv : Inv D eps minPts c (q :: rest) s) :
    Inv D eps minPts c rest (relabelIf s q c) := by
  have hlq : s.labels q ≠ .unset := (hInv.vl q).mp hv
  cases hql : s.labels q with
  | unset => exact absurd hql hlq
  | cl d0 =>
    rw [relabelIf_eq_of_cl s q c d0 hql]
    refine ⟨hInv.vl, hInv.coreflag, hInv.bound, hInv.corenz, hInv.border,
      ?_, ?_, hInv.occ⟩
    · intro q0 d hq0c hq0l p hnear
      rcases hInv.reach q0 d hq0c hq0l p hnear with h | ⟨hdc, hp⟩
      · exact Or.inl h
      · rcases List.mem_cons.mp hp with hpe | hpm
        · subst hpe
          exact Or.inl ⟨d0, by rw [hdc]; exact hInv.bound p d0 hql, hql⟩
        · exact Or.inr ⟨hdc, hpm⟩
    · intro x hx
      exact hInv.seedsR x (List.mem_cons_of_mem q hx)
  | noise =>
    rw [relabelIf_eq_of_noise s q c hql]
    have hncq : ¬ coreCond D eps minPts q := fun hc => hInv.corenz q hc hql
    have hlab : ∀ p, (setLabel s q (.cl c)).labels p =
        if p = q then .cl c else s.labels p := by
      intro p
      by_cases hpq : p = q
      · subst hpq
        rw [setLabel_labels_self, if_pos rfl]
      · rw [setLabel_labels_ne s q _ p hpq, if_neg hpq]
    refine ⟨?_, ?_, ?_, ?_, ?_, ?_, ?_, ?_⟩
    · intro p
      rw [hlab p, setLabel_visited]
      by_cases hpq : p = q
      · subst hpq
        rw [if_pos rfl]
        simp [hv]
      · rw [if_neg hpq]
        exact hInv.vl p
    · intro p
      rw [setLabel_visited, setLabel_core]
      exact hInv.coreflag p
    · intro p d
      rw [hlab p]
      by_cases hpq : p = q
      · rw [if_pos hpq]
        intro h
        cases h
        exact le_refl c
      · rw [if_neg hpq]
        exact hInv.bound p d
    · intro p hp
      rw [hlab p]
      by_cases hpq : p = q
      · rw [if_pos hpq]
        simp
      · rw [if_neg hpq]
        exact hInv.corenz p hp
    · intro p d hpd hpnc
      rw [hlab p] at hpd
      by_cases hpq : p = q
      · rw [if_pos hpq] at hpd
        cases hpd
        subst hpq
        rcases hInv.seedsR p (List.mem_cons_self p rest) with
          ⟨q1, hq1c, hq1l, hq1d⟩
        have hq1ne : q1 ≠ p := fun he => by
          rw [he, hql] at hq1l
          cases hq1l
        refine ⟨q1, hq1c, ?_, hq1d⟩
        rw [hlab q1, if_neg hq1ne]
        exact hq1l
      · rw [if_neg hpq] at hpd
        rcases hInv.border p d hpd hpnc with ⟨q1, hq1c, hq1l, hq1d⟩
        have hq1ne : q1 ≠ q := fun he => by
          rw [he, hql] at hq1l
          cases hq1l
        refine ⟨q1, hq1c, ?_, hq1d⟩
        rw [hlab q1, if_neg hq1ne]
        exact hq1l
    · intro q0 d hq0c hq0l p hnear
      rw [hlab q0] at hq0l
      have hq0ne : q0 ≠ q := fun he => hncq (he ▸ hq0c)
      rw [if_neg hq0ne] at hq0l
      rcases hInv.reach q0 d hq0c hq0l p hnear with ⟨e, he1, he2⟩ | ⟨hdc, hp⟩
      · have hpne : p ≠ q := fun hpe => by
          rw [hpe, hql] at he2
          cases he2
        exact Or.inl ⟨e, he1, by rw [hlab p, if_neg hpne]; exact he2⟩
      · rcases List.mem_cons.mp hp with hpe | hpm
        · subst hpe
          exact Or.inl ⟨c, by rw [hdc], by rw [hlab p, if_pos rfl]⟩
        · exact Or.inr ⟨hdc, hpm⟩
    · intro x hx
      rcases hInv.seedsR x (List.mem_cons_of_mem q hx) with
        ⟨q1, hq1c, hq1l, hq1d⟩
      have hq1ne : q1 ≠ q := fun he => by
        rw [he, hql] at hq1l
        cases hq1l
      exact ⟨q1, hq1c, by rw [hlab q1, if_neg hq1ne]; exact hq1l, hq1d⟩
    · intro d hd
      rcases hInv.occ d hd with ⟨p, hp⟩
      have hpne : p ≠ q := fun he => by
        rw [he, hql] at hp
        cases hp
      exact ⟨p, by rw [hlab p, if_neg hpne]; exact hp⟩

theorem step_inv_unvisited {n : ℕ} {α : Type} [LinearOrder α] (D : Fin n → Fin n → α) (eps : α)
    (minPts c : ℕ) (q : Fin n) (rest : List (Fin n)) (s : St n)
    (hv : s.visited q = false) (hInv : Inv D eps minPts c (q :: rest) s) :
    Inv D eps minPts c
      (if minPts ≤ (regionQuery D eps q).length then
        rest ++ (regionQuery D eps q).filter (fun x => decide (x ∉ rest))
      else rest)
      (relabelIf (visit s q (decide (minPts ≤ (regionQuery D eps q).length)))
        q c) := by
  have hlq : s.labels q = .unset := by
    by_contra hne
    rw [(hInv.vl q).mpr hne] at hv
    cases hv
  set b := decide (minPts ≤ (regionQuery D eps q).length) with hb
  set seeds2 := if minPts ≤ (regionQuery D eps q).length then
      rest ++ (regionQuery D eps q).filter (fun x => decide (x ∉ rest))
    else rest with hs2
  have hrw : relabelIf (visit s q b) q c = setLabel (visit s q b) q (.cl c) := by
    refine relabelIf_eq_of_unset (visit s q b) q c ?_
    rw [visit_labels]
    exact hlq
  rw [hrw]
  have hlab : ∀ p, (setLabel (visit s q b) q (.cl c)).labels p =
      if p = q then .cl c else s.labels p := by
    intro p
    by_cases hpq : p = q
    · subst hpq
      rw [setLabel_labels_self, if_pos rfl]
    · rw [setLabel_labels_ne _ q _ p hpq, visit_labels, if_neg hpq]
  have hvis : ∀ p, (setLabel (visit s q b) q (.cl c)).visited p =
      if p = q then true else s.visited p := by
    intro p
    rw [setLabel_visited]
    by_cases hpq : p = q
    · subst hpq
      rw [visit_visited_self, if_pos rfl]
    · rw [visit_visited_ne s q b p hpq, if_neg hpq]
  have hcor : ∀ p, (setLabel (visit s q b) q (.cl c)).core p =
      if p = q then b else s.core p := by
    intro p
    rw [setLabel_core]
    by_cases hpq : p = q
    · subst hpq
      rw [visit_core_self, if_pos rfl]
    · rw [visit_core_ne s q b p hpq, if_neg hpq]
  have hrest2 : ∀ p ∈ rest, p ∈ seeds2 := by
    intro p hp
    rw [hs2]
    split
    · exact List.mem_append_left _ hp
    · exact hp
  have hNq2 : minPts ≤ (regionQuery D eps q).length →
      ∀ p ∈ regionQuery D eps q, p ∈ seeds2 := by
    intro hc p hp
    rw [hs2, if_pos hc]
    by_cases hpr : p ∈ rest
    · exact List.mem_append_left _ hpr
    · refine List.mem_append_right _ ?_
      rw [List.mem_filter]
      exact ⟨hp, by simpa using hpr⟩
  refine ⟨?_, ?_, ?_, ?_, ?_, ?_, ?_, ?_⟩
  · intro p
    rw [hlab p, hvis p]
    by_cases hpq : p = q
    · rw [if_pos hpq, if_pos hpq]
      simp
    · rw [if_neg hpq, if_neg hpq]
      exact hInv.vl p
  · intro p
    rw [hcor p, hvis p]
    by_cases hpq : p = q
    · subst hpq
      rw [if_pos rfl, if_pos rfl, hb]
      simp [coreCond]
    · rw [if_neg hpq, if_neg hpq]
      exact hInv.coreflag p
  · intro p d
    rw [hlab p]
    by_cases hpq : p = q
    · rw [if_pos hpq]
      intro h
      cases h
      exact le_refl c
    · rw [if_neg hpq]
      exact hInv.bound p d
  · intro p hp
    rw [hlab p]
    by_cases hpq : p = q
    · rw [if_pos hpq]
      simp
    · rw [if_neg hpq]
      exact hInv.corenz p hp
  · intro p d hpd hpnc
    rw [hlab p] at hpd
    by_cases hpq : p = q
    · rw [if_pos hpq] at hpd
      cases hpd
      subst hpq
      rcases hInv.seedsR p (List.mem_cons_self p rest) with
        ⟨q1, hq1c, hq1l, hq1d⟩
      have hq1ne : q1 ≠ p := fun he => by
        rw [he, hlq] at hq1l
        cases hq1l
      exact ⟨q1, hq1c, by rw [hlab q1, if_neg hq1ne]; exact hq1l, hq1d⟩
    · rw [if_neg hpq] at hpd
      rcases hInv.border p d hpd hpnc with ⟨q1, hq1c, hq1l, hq1d⟩
      have hq1ne : q1 ≠ q := fun he => by
        rw [he, hlq] at hq1l
        cases hq1l
      exact ⟨q1, hq1c, by rw [hlab q1, if_neg hq1ne]; exact hq1l, hq1d⟩
  · intro q0 d hq0c hq0l p hnear
    rw [hlab q0] at hq0l
    by_cases hq0q : q0 = q
    · rw [if_pos hq0q] at hq0l
      cases hq0l
      subst hq0q
      have hc : minPts ≤ (regionQuery D eps q0).length := hq0c
      have hpN : p ∈ regionQuery D eps q0 :=
        (mem_regionQuery D eps q0 p).mpr hnear
      exact Or.inr ⟨rfl, hNq2 hc p hpN⟩
    · rw [if_neg hq0q] at hq0l
      rcases hInv.reach q0 d hq0c hq0l p hnear with ⟨e, he1, he2⟩ | ⟨hdc, hp⟩
      · have hpne : p ≠ q := fun hpe => by
          rw [hpe, hlq] at he2
          cases he2
        exact Or.inl ⟨e, he1, by rw [hlab p, if_neg hpne]; exact he2⟩
      · rcases List.mem_cons.mp hp with hpe | hpm
        · subst hpe
          exact Or.inl ⟨c, by rw [hdc], by rw [hlab p, if_pos rfl]⟩
        · exact Or.inr ⟨hdc, hrest2 p hpm⟩
  · intro x hx
    rw [hs2] at hx
    have hcase : x ∈ rest ∨ (minPts ≤ (regionQuery D eps q).length ∧
        x ∈ regionQuery D eps q) := by
      by_cases hc : minPts ≤ (regionQuery D eps q).length
      · rw [if_pos hc] at hx
        rcases List.mem_append.mp hx with h1 | h1
        · exact Or.inl h1
        · exact Or.inr ⟨hc, (List.mem_filter.mp h1).1⟩
      · rw [if_neg hc] at hx
        exact Or.inl hx
    rcases hcase with h1 | ⟨hc, h1⟩
    · rcases hInv.seedsR x (List.mem_cons_of_mem q h1) with
        ⟨q1, hq1c, hq1l, hq1d⟩
      have hq1ne : q1 ≠ q := fun he => by
        rw [he, hlq] at hq1l
        cases hq1l
      exact ⟨q1, hq1c, by rw [hlab q1, if_neg hq1ne]; exact hq1l, hq1d⟩
    · refine ⟨q, hc, by rw [hlab q, if_pos rfl], ?_⟩
      exact (mem_regionQuery D eps q x).mp h1
  · intro d hd
    rcases hInv.occ d hd with ⟨p, hp⟩
    have hpne : p ≠ q := fun he => by
      rw [he, hlq] at hp
      cases hp
    exact ⟨p, by rw [hlab p, if_neg hpne]; exact hp⟩

theorem expandStep_inv {n : ℕ} {α : Type} [LinearOrder α] (D : Fin n → Fin n → α) (eps : α)
    (minPts c : ℕ) (q : Fin n) (rest : List (Fin n)) (s : St n)
    (hInv : Inv D eps minPts c (q :: rest) s) :
    Inv D eps minPts c (expandStep D eps minPts c q rest s).1
      (expandStep D eps minPts c q rest s).2 := by
  unfold expandStep
  by_cases hv : s.visited q = true
  · rw [if_pos hv]
    exact step_inv_visited D eps minPts c q rest s hv hInv
  · rw [if_neg hv]
    exact step_inv_unvisited D eps minPts c q rest s (by simpa using hv) hInv

theorem expandF_inv {n : ℕ} {α : Type} [LinearOrder α] (D : Fin n → Fin n → α) (eps : α)
    (minPts c : ℕ) :
    ∀ (fuel : ℕ) (seeds : List (Fin n)) (s : St n),
      expMeasure s seeds ≤ fuel → Inv D eps minPts c seeds s →
      Inv D eps minPts c [] (expandF D eps minPts c fuel seeds s) := by
  intro fuel
  induction fuel with
  | zero =>
    intro seeds s hm hInv
    have hlen : seeds.length = 0 := by
      unfold expMeasure at hm
      omega
    have hnil : seeds = [] := List.length_eq_zero.mp hlen
    subst hnil
    exact hInv
  | succ fuel ih =>
    intro seeds s hm hInv
    cases seeds with
    | nil => exact hInv
    | cons q rest =>
      unfold expandF
      refine ih _ _ ?_ (expandStep_inv D eps minPts c q rest s hInv)
      have := expandStep_measure D eps minPts c q rest s
      omega

theorem expand_inv {n : ℕ} {α : Type} [LinearOrder α] (D : Fin n → Fin n → α) (eps : α)
    (minPts c : ℕ) (seeds : List (Fin n)) (s : St n)
    (hInv : Inv D eps minPts c seeds s) :
    Inv D eps minPts c [] (expand D eps minPts c seeds s) :=
  expandF_inv D eps minPts c (expMeasure s seeds) seeds s (le_refl _) hInv

theorem oinv_init (n : ℕ) {α : Type} [LinearOrder α] (D : Fin n → Fin n → α) (eps : α) (minPts : ℕ) :
    OInv D eps minPts 0 (initSt n) := by
  refine ⟨?_, ?_, ?_, ?_, ?_, ?_, ?_⟩
  · intro p
    simp [initSt]
  · intro p
    simp [initSt]
  · intro p d h
    cases h
  · intro p _ h
    cases h
  · intro p d h
    cases h
  · intro q d _ h
    cases h
  · intro d hd
    cases hd

theorem oinv_seed {n : ℕ} {α : Type} [LinearOrder α] (D : Fin n → Fin n → α) (eps : α) (minPts k : ℕ)
    (p0 : Fin n) (s : St n) (hv : s.visited p0 = false)
    (hc : minPts ≤ (regionQuery D eps p0).length)
    (h : OInv D eps minPts k s) :
    Inv D eps minPts k
      ((regionQuery D eps p0).filter (fun x => decide (¬ x = p0)))
      (setLabel (visit s p0 true) p0 (.cl k)) := by
  have hlq : s.labels p0 = .unset := by
    by_contra hne
    rw [(h.vl p0).mpr hne] at hv
    cases hv
  have hlab : ∀ p, (setLabel (visit s p0 true) p0 (.cl k)).labels p =
      if p = p0 then .cl k else s.labels p := by
    intro p
    by_cases hpq : p = p0
    · subst hpq
      rw [setLabel_labels_self, if_pos rfl]
    · rw [setLabel_labels_ne _ p0 _ p hpq, visit_labels, if_neg hpq]
  have hvis : ∀ p, (setLabel (visit s p0 true) p0 (.cl k)).visited p =
      if p = p0 then true else s.visited p := by
    intro p
    rw [setLabel_visited]
    by_cases hpq : p = p0
    · subst hpq
      rw [visit_visited_self, if_pos rfl]
    · rw [visit_visited_ne s p0 true p hpq, if_neg hpq]
  have hcor : ∀ p, (setLabel (visit s p0 true) p0 (.cl k)).core p =
      if p = p0 then true else s.core p := by
    intro p
    rw [setLabel_core]
    by_cases hpq : p = p0
    · subst hpq
      rw [visit_core_self, if_pos rfl]
    · rw [visit_core_ne s p0 true p hpq, if_neg hpq]
  refine ⟨?_, ?_, ?_, ?_, ?_, ?_, ?_, ?_⟩
  · intro p
    rw [hlab p, hvis p]
    by_cases hpq : p = p0
    · rw [if_pos hpq, if_pos hpq]
      simp
    · rw [if_neg hpq, if_neg hpq]
      exact h.vl p
  · intro p
    rw [hcor p, hvis p]
    by_cases hpq : p = p0
    · subst hpq
      rw [if_pos rfl, if_pos rfl]
      simpa [coreCond] using hc
    · rw [if_neg hpq, if_neg hpq]
      exact h.coreflag p
  · intro p d
    rw [hlab p]
    by_cases hpq : p = p0
    · rw [if_pos hpq]
      intro he
      cases he
      exact le_refl k
    · rw [if_neg hpq]
      intro he
      exact le_of_lt (h.boundLt p d he)
  · intro p hp
    rw [hlab p]
    by_cases hpq : p = p0
    · rw [if_pos hpq]
      simp
    · rw [if_neg hpq]
      exact h.corenz p hp
  · intro p d hpd hpnc
    rw [hlab p] at hpd
    by_cases hpq : p = p0
    · rw [if_pos hpq] at hpd
      cases hpd
      subst hpq
      exact absurd hc hpnc
    · rw [if_neg hpq] at hpd
      rcases h.border p d hpd hpnc with ⟨q1, hq1c, hq1l, hq1d⟩
      have hq1ne : q1 ≠ p0 := fun he => by
        rw [he, hlq] at hq1l
        cases hq1l
      exact ⟨q1, hq1c, by rw [hlab q1, if_neg hq1ne]; exact hq1l, hq1d⟩
  · intro q0 d hq0c hq0l p hnear
    rw [hlab q0] at hq0l
    by_cases hq0q : q0 = p0
    · rw [if_pos hq0q] at hq0l
      cases hq0l
      subst hq0q
      by_cases hpq : p = q0
      · subst hpq
        exact Or.inl ⟨k, le_refl k, by rw [hlab p, if_pos rfl]⟩
      · refine Or.inr ⟨rfl, ?_⟩
        rw [List.mem_filter]
        exact ⟨(mem_regionQuery D eps q0 p).mpr hnear, by simpa using hpq⟩
    · rw [if_neg hq0q] at hq0l
      rcases h.reach0 q0 d hq0c hq0l p hnear with ⟨e, he1, he2⟩
      have hpne : p ≠ p0 := fun hpe => by
        rw [hpe, hlq] at he2
        cases he2
      exact Or.inl ⟨e, he1, by rw [hlab p, if_neg hpne]; exact he2⟩
  · intro x hx
    rw [List.mem_filter] at hx
    refine ⟨p0, hc, by rw [hlab p0, if_pos rfl], ?_⟩
    exact (mem_regionQuery D eps p0 x).mp hx.1
  · intro d hd
    rcases Nat.lt_or_ge d k with hlt | hge
    · rcases h.occLt d hlt with ⟨p, hp⟩
      have hpne : p ≠ p0 := fun he => by
        rw [he, hlq] at hp
        cases hp
      exact ⟨p, by rw [hlab p, if_neg hpne]; exact hp⟩
    · have hdk : d = k := le_antisymm hd hge
      subst hdk
      exact ⟨p0, by rw [hlab p0, if_pos rfl]⟩

theorem inv_to_oinv {n : ℕ} {α : Type} [LinearOrder α] (D : Fin n → Fin n → α) (eps : α)
    (minPts k : ℕ) (s : St n) (h : Inv D eps minPts k [] s) :
    OInv D eps minPts (k + 1) s := by
  refine ⟨h.vl, h.coreflag, ?_, h.corenz, h.border, ?_, ?_⟩
  · intro p d hpd
    exact Nat.lt_succ_of_le (h.bound p d hpd)
  · intro q d hqc hql p hnear
    rcases h.reach q d hqc hql p hnear with he | ⟨_, hp⟩
    · exact he
    · exact absurd hp (List.not_mem_nil p)
  · intro d hd
    exact h.occ d (Nat.lt_succ_iff.mp hd)

theorem oinv_noisemark {n : ℕ} {α : Type} [LinearOrder α] (D : Fin n → Fin n → α) (eps : α)
    (minPts k : ℕ) (p0 : Fin n) (s : St n) (hv : s.visited p0 = false)
    (hnc : ¬ minPts ≤ (regionQuery D eps p0).length)
    (h : OInv D eps minPts k s) :
    OInv D eps minPts k (setLabel (visit s p0 false) p0 .noise) := by
  have hlq : s.labels p0 = .unset := by
    by_contra hne
    rw [(h.vl p0).mpr hne] at hv
    cases hv
  have hlab : ∀ p, (setLabel (visit s p0 false) p0 .noise).labels p =
      if p = p0 then .noise else s.labels p := by
    intro p
    by_cases hpq : p = p0
    · subst hpq
      rw [setLabel_labels_self, if_pos rfl]
    · rw [setLabel_labels_ne _ p0 _ p hpq, visit_labels, if_neg hpq]
  have hvis : ∀ p, (setLabel (visit s p0 false) p0 .noise).visited p =
      if p = p0 then true else s.visited p := by
    intro p
    rw [setLabel_visited]
    by_cases hpq : p = p0
    · subst hpq
      rw [visit_visited_self, if_pos rfl]
    · rw [visit_visited_ne s p0 false p hpq, if_neg hpq]
  have hcor : ∀ p, (setLabel (visit s p0 false) p0 .noise).core p =
      if p = p0 then false else s.core p := by
    intro p
    rw [setLabel_core]
    by_cases hpq : p = p0
    · subst hpq
      rw [visit_core_self, if_pos rfl]
    · rw [visit_core_ne s p0 false p hpq, if_neg hpq]
  refine ⟨?_, ?_, ?_, ?_, ?_, ?_, ?_⟩
  · intro p
    rw [hlab p, hvis p]
    by_cases hpq : p = p0
    · rw [if_pos hpq, if_pos hpq]
      simp
    · rw [if_neg hpq, if_neg hpq]
      exact h.vl p
  · intro p
    rw [hcor p, hvis p]
    by_cases hpq : p = p0
    · subst hpq
      rw [if_pos rfl, if_pos rfl]
      simp [coreCond]
      omega
    · rw [if_neg hpq, if_neg hpq]
      exact h.coreflag p
  · intro p d
    rw [hlab p]
    by_cases hpq : p = p0
    · rw [if_pos hpq]
      intro he
      cases he
    · rw [if_neg hpq]
      exact h.boundLt p d
  · intro p hp
    rw [hlab p]
    by_cases hpq : p = p0
    · subst hpq
      exact absurd hp hnc
    · rw [if_neg hpq]
      exact h.corenz p hp
  · intro p d hpd hpnc
    rw [hlab p] at hpd
    by_cases hpq : p = p0
    · rw [if_pos hpq] at hpd
      cases hpd
    · rw [if_neg hpq] at hpd
      rcases h.border p d hpd hpnc with ⟨q1, hq1c, hq1l, hq1d⟩
      have hq1ne : q1 ≠ p0 := fun he => by
        rw [he, hlq] at hq1l
        cases hq1l
      exact ⟨q1, hq1c, by rw [hlab q1, if_neg hq1ne]; exact hq1l, hq1d⟩
  · intro q0 d hq0c hq0l p hnear
    rw [hlab q0] at hq0l
    by_cases hq0q : q0 = p0
    · rw [if_pos hq0q] at hq0l
      cases hq0l
    · rw [if_neg hq0q] at hq0l
      rcases h.reach0 q0 d hq0c hq0l p hnear with ⟨e, he1, he2⟩
      have hpne : p ≠ p0 := fun hpe => by
        rw [hpe, hlq] at he2
        cases he2
      exact ⟨e, he1, by rw [hlab p, if_neg hpne]; exact he2⟩
  · intro d hd
    rcases h.occLt d hd with ⟨p, hp⟩
    have hpne : p ≠ p0 := fun he => by
      rw [he, hlq] at hp
      cases hp
    exact ⟨p, by rw [hlab p, if_neg hpne]; exact hp⟩

theorem dbLoop_oinv {n : ℕ} {α : Type} [LinearOrder α] (D : Fin n → Fin n → α) (eps : α)
    (minPts : ℕ) :
    ∀ (ps : List (Fin n)) (k : ℕ) (s : St n), OInv D eps minPts k s →
      OInv D eps minPts (dbLoop D eps minPts ps k s).2
        (dbLoop D eps minPts ps k s).1 := by
  intro ps
  induction ps with
  | nil => intro k s h; exact h
  | cons p0 rest ih =>
    intro k s h
    unfold dbLoop
    by_cases hv : s.visited p0 = true
    · rw [if_pos hv]
      exact ih k s h
    · rw [if_neg hv]
      by_cases hc : minPts ≤ (regionQuery D eps p0).length
      · rw [if_pos hc]
        refine ih (k + 1) _ ?_
        refine inv_to_oinv D eps minPts k _ ?_
        exact expand_inv D eps minPts k _ _
          (oinv_seed D eps minPts k p0 s (by simpa using hv) hc h)
      · rw [if_neg hc]
        exact ih k _
          (oinv_noisemark D eps minPts k p0 s (by simpa using hv) hc h)

/-! ### Final-state facts -/

theorem runDBSCAN_oinv (n : ℕ) {α : Type} [LinearOrder α] (D : Fin n → Fin n → α) (eps : α)
    (minPts : ℕ) :
    OInv D eps minPts (clCount n D eps minPts) (finalSt n D eps minPts) := by
  unfold finalSt clCount runDBSCAN
  exact dbLoop_oinv D eps minPts (List.finRange n) 0 (initSt n)
    (oinv_init n D eps minPts)

theorem finalSt_visited (n : ℕ) {α : Type} [LinearOrder α] (D : Fin n → Fin n → α) (eps : α)
    (minPts : ℕ) (p : Fin n) :
    (finalSt n D eps minPts).visited p = true := by
  unfold finalSt runDBSCAN
  exact dbLoop_visits D eps minPts (List.finRange n) 0 (initSt n) p
    (List.mem_finRange p)

theorem finalSt_complete (n : ℕ) {α : Type} [LinearOrder α] (D : Fin n → Fin n → α) (eps : α)
    (minPts : ℕ) (p : Fin n) :
    (finalSt n D eps minPts).labels p ≠ .unset :=
  ((runDBSCAN_oinv n D eps minPts).vl p).mp (finalSt_visited n D eps minPts p)

theorem finalSt_tame (n : ℕ) {α : Type} [LinearOrder α] (D : Fin n → Fin n → α) (eps : α)
    (minPts : ℕ) : tame (finalSt n D eps minPts) := by
  unfold finalSt runDBSCAN
  exact dbLoop_tame D eps minPts (List.finRange n) 0 (initSt n) (tame_init n)


/-! ### Claim theorems -/

/-- C1: in every run of the engine every point index receives exactly one
label, a cluster id or NOISE; the noise set and the members of the cluster
ids 0..clusterCount-1 are pairwise disjoint and cover the whole index
range. -/
theorem partition_after_run (n : ℕ) {α : Type} [LinearOrder α] (D : Fin n → Fin n → α) (eps : α)
    (minPts : ℕ) (_hn : 1 ≤ n) :
    (∀ p : Fin n, (finalSt n D eps minPts).labels p ≠ .unset) ∧
    (noiseSet n D eps minPts ∪
      (Finset.range (clCount n D eps minPts)).biUnion
        (fun c => membersSet n D eps minPts c) = Finset.univ) ∧
    (∀ c : ℕ, Disjoint (noiseSet n D eps minPts) (membersSet n D eps minPts c)) ∧
    (∀ c1 c2 : ℕ, c1 ≠ c2 →
      Disjoint (membersSet n D eps minPts c1) (membersSet n D eps minPts c2)) := by
  refine ⟨finalSt_complete n D eps minPts, ?_, ?_, ?_⟩
  · apply Finset.eq_univ_of_forall
    intro p
    rw [Finset.mem_union]
    cases hl : (finalSt n D eps minPts).labels p with
    | unset => exact absurd hl (finalSt_complete n D eps minPts p)
    | noise =>
      exact Or.inl (by rw [noiseSet, Finset.mem_filter]; exact ⟨Finset.mem_univ p, hl⟩)
    | cl d =>
      refine Or.inr ?_
      rw [Finset.mem_biUnion]
      refine ⟨d, ?_, ?_⟩
      · rw [Finset.mem_range]
        exact (runDBSCAN_oinv n D eps minPts).boundLt p d hl
      · rw [membersSet, Finset.mem_filter]
        exact ⟨Finset.mem_univ p, hl⟩
  · intro c
    rw [Finset.disjoint_left]
    intro p hp hp2
    rw [noiseSet, Finset.mem_filter] at hp
    rw [membersSet, Finset.mem_filter] at hp2
    rw [hp.2] at hp2
    cases hp2.2
  · intro c1 c2 hne
    rw [Finset.disjoint_left]
    intro p hp hp2
    rw [membersSet, Finset.mem_filter] at hp hp2
    rw [hp.2] at hp2
    exact hne (Lbl.cl.inj hp2.2)

theorem partition_after_run_witness :
    (1 ≤ 9) ∧ (finalSt 9 wD 3 4).labels 0 ≠ .unset :=
  ⟨by decide, (partition_after_run 9 wD 3 4 (by decide)).1 0⟩

/-- C2: the recorded core flag of a point holds exactly when its
eps-neighborhood has at least minPts points; every core point ends in a
cluster; every labeled non-core point lies within eps of a core point of the
same cluster. -/
theorem core_border_consistency (n : ℕ) {α : Type} [LinearOrder α] (D : Fin n → Fin n → α) (eps : α)
    (minPts : ℕ) (hsymm : ∀ a b : Fin n, D a b = D b a) :
    (∀ p : Fin n, isCoreStore n D eps minPts p = true ↔
      minPts ≤ (regionQuery D eps p).length) ∧
    (∀ p : Fin n, coreCond D eps minPts p →
      ∃ c, (finalSt n D eps minPts).labels p = .cl c) ∧
    (∀ (p : Fin n) (c : ℕ), (finalSt n D eps minPts).labels p = .cl c →
      ¬ coreCond D eps minPts p →
      ∃ q, coreCond D eps minPts q ∧
        (finalSt n D eps minPts).labels q = .cl c ∧ D p q ≤ eps) := by
  refine ⟨?_, ?_, ?_⟩
  · intro p
    rw [isCoreStore, (runDBSCAN_oinv n D eps minPts).coreflag p]
    have hv := finalSt_visited n D eps minPts p
    exact ⟨fun h => h.2, fun h => ⟨hv, h⟩⟩
  · intro p hp
    cases hl : (finalSt n D eps minPts).labels p with
    | unset => exact absurd hl (finalSt_complete n D eps minPts p)
    | noise => exact absurd hl ((runDBSCAN_oinv n D eps minPts).corenz p hp)
    | cl c => exact ⟨c, rfl⟩
  · intro p c hl hnc
    rcases (runDBSCAN_oinv n D eps minPts).border p c hl hnc with
      ⟨q, hqc, hql, hqd⟩
    exact ⟨q, hqc, hql, by rw [hsymm]; exact hqd⟩

theorem core_border_consistency_witness :
    isCoreStore 9 wD 3 4 0 = true ↔ 4 ≤ (regionQuery wD 3 0).length :=
  (core_border_consistency 9 wD 3 4 (by decide)).1 0

/-- C3: during a run, a point holding a non-noise cluster label keeps it
through every further step of the expansion loop and of the outer loop; the
only label change a step may make is upgrading an unset or NOISE point to
the cluster currently being expanded, and across the remaining outer loop a
NOISE point either stays NOISE or is upgraded to a later cluster. -/
theorem label_never_downgraded {α : Type} [LinearOrder α] (n : ℕ)
    (D : Fin n → Fin n → α) (eps : α) (minPts : ℕ) :
    (∀ (c fuel : ℕ) (seeds : List (Fin n)) (s : St n) (p : Fin n) (d : ℕ),
      s.labels p = .cl d →
      (expandF D eps minPts c fuel seeds s).labels p = .cl d) ∧
    (∀ (c fuel : ℕ) (seeds : List (Fin n)) (s : St n) (p : Fin n),
      (expandF D eps minPts c fuel seeds s).labels p = s.labels p ∨
        ((expandF D eps minPts c fuel seeds s).labels p = .cl c ∧
          (s.labels p = .unset ∨ s.labels p = .noise))) ∧
    (∀ (ps : List (Fin n)) (k : ℕ) (s : St n) (p : Fin n) (d : ℕ), tame s →
      s.labels p = .cl d →
      (dbLoop D eps minPts ps k s).1.labels p = .cl d) ∧
    (∀ (ps : List (Fin n)) (k : ℕ) (s : St n) (p : Fin n), tame s →
      s.labels p = .noise →
      (dbLoop D eps minPts ps k s).1.labels p = .noise ∨
        ∃ d, k ≤ d ∧ (dbLoop D eps minPts ps k s).1.labels p = .cl d) := by
  refine ⟨?_, ?_, ?_, ?_⟩
  · intro c fuel seeds s p d h
    exact expandF_labels_cl D eps minPts c fuel seeds s p d h
  · intro c fuel seeds s p
    exact expandF_labels_cases D eps minPts c fuel seeds s p
  · intro ps k s p d ht h
    exact dbLoop_labels_cl D eps minPts ps k s p d ht h
  · intro ps k s p ht h
    exact dbLoop_noise_cases D eps minPts ps k s p ht h

theorem label_never_downgraded_witness :
    (dbLoop wD 3 4 (List.finRange 9) 1 wSt).1.labels 0 = .cl 0 :=
  (label_never_downgraded 9 wD 3 4).2.2.1 (List.finRange 9) 1 wSt 0 0
    (by decide) (by decide)

/-- C4: a non-core point within eps of a labeled core point ends with a
cluster label, namely the smallest cluster id among the clusters owning a
core point within eps of it.  Cluster ids are assigned by the outer loop in
increasing order, so the smallest id is the cluster whose seeding core point
was processed first in Dataset order; in particular a border point shared by
two clusters goes to the earlier one. -/
theorem border_tiebreak_min {α : Type} [LinearOrder α] (n : ℕ)
    (D : Fin n → Fin n → α) (eps : α) (minPts : ℕ)
    (hsymm : ∀ a b : Fin n, D a b = D b a) (p q1 : Fin n) (c1 : ℕ)
    (hnc : ¬ coreCond D eps minPts p)
    (hq1c : coreCond D eps minPts q1)
    (hq1l : (finalSt n D eps minPts).labels q1 = .cl c1)
    (hd1 : D p q1 ≤ eps) :
    ∃ c0, (finalSt n D eps minPts).labels p = .cl c0 ∧
      c0 ∈ nearCoreIds n D eps minPts p ∧
      ∀ c ∈ nearCoreIds n D eps minPts p, c0 ≤ c := by
  obtain ⟨e, he1, he2⟩ := (runDBSCAN_oinv n D eps minPts).reach0 q1 c1 hq1c
    hq1l p (by rw [hsymm q1 p]; exact hd1)
  refine ⟨e, he2, ?_, ?_⟩
  · rcases (runDBSCAN_oinv n D eps minPts).border p e he2 hnc with
      ⟨q2, hq2c, hq2l, hq2d⟩
    rw [nearCoreIds, Finset.mem_filter, Finset.mem_range]
    refine ⟨(runDBSCAN_oinv n D eps minPts).boundLt q2 e hq2l,
      q2, hq2c, hq2l, ?_⟩
    rw [hsymm p q2]
    exact hq2d
  · intro c hc
    rw [nearCoreIds, Finset.mem_filter] at hc
    obtain ⟨-, q3, hq3c, hq3l, hq3d⟩ := hc
    obtain ⟨e2, he21, he22⟩ := (runDBSCAN_oinv n D eps minPts).reach0 q3 c
      hq3c hq3l p (by rw [hsymm q3 p]; exact hq3d)
    rw [he2] at he22
    have hee : e = e2 := Lbl.cl.inj he22
    rw [hee]
    exact he21

theorem border_tiebreak_min_witness :
    (finalSt 9 wD 3 4).labels 4 = .cl 0 := by
  obtain ⟨c0, hl, hmem, hmin⟩ := border_tiebreak_min 9 wD 3 4 (by decide)
    4 3 0 (by decide) (by decide) (by decide) (by decide)
  have h0 : c0 = 0 := Nat.le_zero.mp (hmin 0 (by decide))
  rw [h0] at hl
  exact hl

/-- C5: the naive region query returns exactly the indices within eps of the
queried point, contains the queried point itself whenever the metric is
reflexive and eps is positive, and the accelerated index built once as a
cache answers every query with exactly the same list. -/
theorem regionQuery_contract {α : Type} [LinearOrder α] [Zero α] (n : ℕ)
    (D : Fin n → Fin n → α) (eps : α) :
    (∀ p q : Fin n, q ∈ regionQuery D eps p ↔ D p q ≤ eps) ∧
    (∀ p : Fin n, D p p = 0 → 0 < eps → p ∈ regionQuery D eps p) ∧
    (∀ p : Fin n, regionQueryIdx n D eps p = regionQuery D eps p) := by
  refine ⟨mem_regionQuery D eps, ?_, ?_⟩
  · intro p hrefl heps
    rw [mem_regionQuery, hrefl]
    exact le_of_lt heps
  · intro p
    have hlen : (buildIndex n D eps).length = n := by
      rw [buildIndex, List.length_map, List.length_finRange]
    have hp : p.1 < (buildIndex n D eps).length := by
      rw [hlen]
      exact p.isLt
    rw [regionQueryIdx, List.getD_eq_getElem _ _ hp]
    simp only [buildIndex, List.getElem_map, List.getElem_finRange]
    congr 1

theorem regionQuery_contract_witness :
    (0 : Fin 9) ∈ regionQuery wD 3 0 :=
  (regionQuery_contract 9 wD 3).2.1 0 (by decide) (by decide)

/-- C6: clustering is deterministic: two runs on the same dataset with the
same eps, minPts and metric produce the same Label Store. -/
theorem cluster_deterministic (pts1 pts2 : List (List ℚ)) (eps1 eps2 : ℚ)
    (k1 k2 : ℤ) (m1 m2 : List ℚ → List ℚ → ℚ) (h1 : pts1 = pts2)
    (h2 : eps1 = eps2) (h3 : k1 = k2) (h4 : m1 = m2) :
    cluster pts1 eps1 k1 m1 = cluster pts2 eps2 k2 m2 := by
  subst h1
  subst h2
  subst h3
  subst h4
  rfl

theorem cluster_deterministic_witness :
    cluster [[0], [1]] 1 1 manhattan = cluster [[0], [1]] 1 1 manhattan :=
  cluster_deterministic [[0], [1]] [[0], [1]] 1 1 1 1 manhattan manhattan
    rfl rfl rfl rfl

/-- C7: the entry point rejects non-positive eps or minPts below one with
InvalidParameter, rejects an empty dataset with EmptyDataset, and every
successful result labels every point with a defined label, the NOISE
sentinel -1 or a non-negative cluster id -- there is no partial success. -/
theorem cluster_failure_modes :
    (∀ (pts : List (List ℚ)) (eps : ℚ) (k : ℤ) (m : List ℚ → List ℚ → ℚ),
      (eps ≤ 0 ∨ k < 1) → cluster pts eps k m = .error .invalidParameter) ∧
    (∀ (pts : List (List ℚ)) (eps : ℚ) (k : ℤ) (m : List ℚ → List ℚ → ℚ),
      0 < eps → 1 ≤ k → pts.length = 0 →
      cluster pts eps k m = .error .emptyDataset) ∧
    (∀ (pts : List (List ℚ)) (eps : ℚ) (k : ℤ) (m : List ℚ → List ℚ → ℚ)
      (st : LabelStore), cluster pts eps k m = .ok st →
      st.labels.length = pts.length ∧ ∀ l ∈ st.labels, l = -1 ∨ 0 ≤ l) := by
  refine ⟨?_, ?_, ?_⟩
  · intro pts eps k m h
    unfold cluster
    rw [if_pos h]
  · intro pts eps k m h1 h2 h3
    unfold cluster
    rw [if_neg (by rw [not_or]; exact ⟨not_le.mpr h1, not_lt.mpr h2⟩),
      if_pos h3]
  · intro pts eps k m st hok
    unfold cluster at hok
    by_cases h1 : eps ≤ 0 ∨ k < 1
    · rw [if_pos h1] at hok
      cases hok
    rw [if_neg h1] at hok
    by_cases h2 : pts.length = 0
    · rw [if_pos h2] at hok
      cases hok
    rw [if_neg h2] at hok
    by_cases h3 : ¬ sameDims pts
    · rw [if_pos h3] at hok
      cases hok
    rw [if_neg h3] at hok
    have h4 := Except.ok.inj hok
    rw [← h4]
    constructor
    · rw [List.length_map, List.length_finRange]
    · intro l hl
      rw [List.mem_map] at hl
      obtain ⟨p, -, rfl⟩ := hl
      have hcomp : (runDBSCAN pts.length (distOf pts m) eps
          k.toNat).1.labels p ≠ .unset :=
        finalSt_complete pts.length (distOf pts m) eps k.toNat p
      cases hlp : (runDBSCAN pts.length (distOf pts m) eps
          k.toNat).1.labels p with
      | unset => exact absurd hlp hcomp
      | noise => exact Or.inl rfl
      | cl c => exact Or.inr (Int.natCast_nonneg c)

theorem cluster_failure_modes_witness :
    cluster [] 0 0 manhattan = .error .invalidParameter :=
  cluster_failure_modes.1 [] 0 0 manhattan (Or.inl (le_refl 0))

/-- C8: the cluster count computed by the notebook, len(set(labels)) minus
one exactly when the NOISE sentinel -1 occurs, equals the number of distinct
non-noise labels; with no noise present it equals the number of distinct
labels. -/
theorem clusterCount_nonnoise :
    ∀ ls : List ℤ, realClusterNum ls = (ls.toFinset.erase (-1)).card ∧
      ((-1 : ℤ) ∉ ls → realClusterNum ls = ls.toFinset.card) := by
  intro ls
  by_cases h : (-1 : ℤ) ∈ ls
  · constructor
    · rw [realClusterNum, if_pos h,
        Finset.card_erase_of_mem (List.mem_toFinset.mpr h)]
    · intro hn
      exact absurd h hn
  · constructor
    · rw [realClusterNum, if_neg h,
        Finset.erase_eq_of_not_mem (fun hc => h (List.mem_toFinset.mp hc))]
      exact Nat.sub_zero _
    · intro _
      rw [realClusterNum, if_neg h]
      exact Nat.sub_zero _

theorem clusterCount_nonnoise_witness :
    realClusterNum [0, 1] = (([0, 1] : List ℤ).toFinset).card :=
  (clusterCount_nonnoise [0, 1]).2 (by decide)

/-- C9: in the integer view of the labels the NOISE sentinel is -1, every
cluster id is non-negative and below clusterCount, every id in the range
0..clusterCount-1 is used by some point, and a clustered point never reads
as the sentinel. -/
theorem noise_sentinel_encoding {α : Type} [LinearOrder α] (n : ℕ)
    (D : Fin n → Fin n → α) (eps : α) (minPts : ℕ) :
    (∀ p : Fin n, labelOf n D eps minPts p = -1 ↔
      (finalSt n D eps minPts).labels p = .noise) ∧
    (∀ p : Fin n, 0 ≤ labelOf n D eps minPts p ↔
      ∃ c, c < clCount n D eps minPts ∧
        (finalSt n D eps minPts).labels p = .cl c ∧
        labelOf n D eps minPts p = (c : ℤ)) ∧
    (∀ c, c < clCount n D eps minPts →
      ∃ p, labelOf n D eps minPts p = (c : ℤ)) ∧
    (∀ (p : Fin n) (c : ℕ), (finalSt n D eps minPts).labels p = .cl c →
      labelOf n D eps minPts p ≠ -1) := by
  refine ⟨?_, ?_, ?_, ?_⟩
  · intro p
    rw [labelOf]
    cases hl : (finalSt n D eps minPts).labels p with
    | unset => exact absurd hl (finalSt_complete n D eps minPts p)
    | noise => simp [Lbl.toInt]
    | cl c =>
      simp only [Lbl.toInt]
      constructor
      · intro hc
        omega
      · intro hc
        cases hc
  · intro p
    rw [labelOf]
    cases hl : (finalSt n D eps minPts).labels p with
    | unset => exact absurd hl (finalSt_complete n D eps minPts p)
    | noise =>
      simp [Lbl.toInt]
    | cl c =>
      simp only [Lbl.toInt]
      constructor
      · intro _
        exact ⟨c, (runDBSCAN_oinv n D eps minPts).boundLt p c hl, rfl, rfl⟩
      · intro _
        exact Int.natCast_nonneg c
  · intro c hc
    obtain ⟨p, hp⟩ := (runDBSCAN_oinv n D eps minPts).occLt c hc
    refine ⟨p, ?_⟩
    rw [labelOf, hp]
    rfl
  · intro p c hl
    rw [labelOf, hl]
    simp only [Lbl.toInt]
    omega

theorem noise_sentinel_encoding_witness :
    ∃ p : Fin 9, labelOf 9 wD 3 4 p = ((0 : ℕ) : ℤ) :=
  (noise_sentinel_encoding 9 wD 3 4).2.2.1 0 (by decide)

/-- C10: nan_to_num, applied to the feature matrix before standardization
and clustering, replaces every NaN and infinite entry by a finite number, so
every entry of the cleaned matrix is finite regardless of which rows the
earlier null-field cleaning kept. -/
theorem nanToNum_all_finite :
    ∀ (m : List (List NpFloat)), ∀ row ∈ nanToNumMatrix m, ∀ v ∈ row,
      v.isFinite = true := by
  intro m row hrow v hv
  rw [nanToNumMatrix, List.mem_map] at hrow
  obtain ⟨r, -, rfl⟩ := hrow
  rw [List.mem_map] at hv
  obtain ⟨x, -, rfl⟩ := hv
  cases x <;> rfl

theorem nanToNum_all_finite_witness :
    NpFloat.isFinite (nanToNum NpFloat.nan) = true :=
  nanToNum_all_finite [[NpFloat.nan]] [nanToNum NpFloat.nan] (by decide)
    (nanToNum NpFloat.nan) (by decide)

end DbscanSpec
